import Mathlib

/-!
Verification of the fusion retrieval subsystem of book-mate
(`src/search/hybrid.py`, class `FusionRetriever`).

The Python code is shallowly embedded as follows.

Scores are modelled by `ℚ` (the Python code computes `alpha * (1.0 / rank)`
etc. on small reciprocals of ranks; the spec states the exact arithmetic
formulas, which we take at face value over the rationals).

A Python `collections.defaultdict(float)` keyed by chunk id, read back via
`dict.items()`, is an insertion-ordered association list
`List (String × ℚ)`: `scores[id] += v` updates an existing key in place
(keeping its position) or appends a fresh key at the end (`updOrAppend`).

`sorted(scores.items(), key=lambda x: -x[1])` is a stable sort by
descending score (`sortDesc`, an insertion sort that keeps the original
relative order of equal-score entries).

`FusionRetriever.id_search` is state-passing: it consumes and returns a
`FusionRetriever` record, because the lazy BM25 load (`load_bm25_index`)
mutates `self.bm25`.  The filesystem is a map `String → Option BM25State`;
`none` at the configured path plays the role of `FileNotFoundError`, which
line 65 of the source catches.
-/

open List

/-- A chunk record as consumed by the fusion layer.  The fusion code only
reads `c["id"]`; the spec's chunk payload is `{id, text}`. -/
structure Chunk where
  id : String
  text : String
  deriving DecidableEq

/-- Python `scores[k] += v` on a `defaultdict(float)`: update the first (and, for
dict semantics, only) occurrence of key `k` in place, else append `(k, v)`
(a missing key defaults to `0`, so `+= v` stores `0 + v = v`). -/
def updOrAppend : List (String × ℚ) → String → ℚ → List (String × ℚ)
  | [], x, v => [(x, v)]
  | p :: t, x, v => if p.1 = x then (p.1, p.2 + v) :: t else p :: updOrAppend t x v

/-- Dict lookup with default `0` (first match wins, as in a dict whose keys
are unique by construction). -/
def scoreOf : List (String × ℚ) → String → ℚ
  | [], _ => 0
  | p :: t, x => if p.1 = x then p.2 else scoreOf t x

/-- The keys of the association list, in insertion order
(`list(scores.keys())`). -/
def keysOf (s : List (String × ℚ)) : List String := s.map Prod.fst

/-- Python `for rank, c in enumerate(results, start=1): scores[c["id"]] += g(rank)`
starting at rank `r`, over a list of already-projected chunk ids. -/
def addRanked (g : ℕ → ℚ) : ℕ → List (String × ℚ) → List String → List (String × ℚ)
  | _, s, [] => s
  | r, s, x :: xs => addRanked g (r + 1) (updOrAppend s x (g r)) xs

/-- One insertion step of the stable descending sort: `x` is placed before
the first entry whose score is `≤` its own, hence after all strictly
greater scores and before all equal ones (the equal ones come from later
positions of the original list, so this is exactly Python's stable
`sorted(..., key=lambda x: -x[1])`). -/
def insDesc (x : String × ℚ) : List (String × ℚ) → List (String × ℚ)
  | [] => [x]
  | y :: ys => if y.2 ≤ x.2 then x :: y :: ys else y :: insDesc x ys

/-- Stable sort by descending score, `sorted(items, key=lambda x: -x[1])`. -/
def sortDesc : List (String × ℚ) → List (String × ℚ)
  | [] => []
  | x :: xs => insDesc x (sortDesc xs)

/-- The score dict built by `FusionRetriever.weighted_fusion`
(src/search/hybrid.py lines 46-50): BM25 contributions
`alpha * (1.0 / rank)` are accumulated first, then embedding contributions
`(1 - alpha) * (1.0 / rank)`, ranks starting at 1. -/
def weightedScores (alpha : ℚ) (bm25_ids embed_ids : List String) : List (String × ℚ) :=
  addRanked (fun r => (1 - alpha) * (1 / (r : ℚ))) 1
    (addRanked (fun r => alpha * (1 / (r : ℚ))) 1 [] bm25_ids) embed_ids

/-- Embedding of `FusionRetriever.weighted_fusion` (src/search/hybrid.py lines 45-51):
build the score dict, sort items by descending score (stable), truncate to
`topk`, return the chunk ids. -/
def weighted_fusion (alpha : ℚ) (bm25_results embed_results : List Chunk) (topk : ℕ) :
    List String :=
  ((sortDesc (weightedScores alpha (bm25_results.map Chunk.id)
    (embed_results.map Chunk.id))).take topk).map Prod.fst

/-- The score dict built by `FusionRetriever.rrf_fusion`
(src/search/hybrid.py lines 31-39): each list contributes `1.0 / (c + rank)`
per item, BM25 list first; there is no per-list weight. -/
def rrfScores (c : ℚ) (bm25_ids embed_ids : List String) : List (String × ℚ) :=
  addRanked (fun r => 1 / (c + (r : ℚ))) 1
    (addRanked (fun r => 1 / (c + (r : ℚ))) 1 [] bm25_ids) embed_ids

/-- Embedding of `FusionRetriever.rrf_fusion` (src/search/hybrid.py lines 23-43):
reciprocal rank fusion with constant `c` (source default 60), truncated to
`k` (source default 7).  Note the signature: there is no `alpha`
parameter, the method is a `staticmethod`. -/
def rrf_fusion (bm25_results embed_results : List Chunk) (k : ℕ) (c : ℚ) : List String :=
  ((sortDesc (rrfScores c (bm25_results.map Chunk.id)
    (embed_results.map Chunk.id))).take k).map Prod.fst

/-- Modelled from the spec: `src/search/bm25.py` (class `BM25Retriever`) is
not in the source tree; only its caller `hybrid.py` is.  Per the spec, the
lexical index carries a document count `N` (`N == 0` is the "not yet
built/loaded" sentinel checked by the fusion retriever) and answers ranked
queries; its `search` behaviour is abstracted as an opaque function. -/
structure BM25State where
  N : ℕ
  searchFn : String → ℕ → List Chunk

/-- Modelled from the spec: `src/search/vec.py` (class `SemanticRetriever`)
is not in the source tree.  Per the spec it answers
`search(query, topk) -> ordered sequence of Chunk`; the fusion retriever
only calls `search`, so the vector index state is abstracted as that
function.  `alpha` and `bm25_index_path` are the constructor-configured
fields of `FusionRetriever.__init__` (source defaults `0.7` and
`"indexes/bm25_index.pkl"`). -/
structure FusionRetriever where
  bm25 : BM25State
  vecSearch : String → ℕ → List Chunk
  alpha : ℚ
  bm25_index_path : String

/-- Replace the in-memory BM25 index (the effect of
`self.bm25.load_index(self.bm25_index_path)` succeeding); every other
field of the retriever is untouched. -/
def setBM25 (fr : FusionRetriever) (st : BM25State) : FusionRetriever :=
  ⟨st, fr.vecSearch, fr.alpha, fr.bm25_index_path⟩

/-- Lines 62-67 of src/search/hybrid.py: if `use_bm25` and the lexical
index is not loaded (`N == 0`), try `load_bm25_index()`; a missing file
(`none` on disk, i.e. `FileNotFoundError`) is caught and downgrades
`use_bm25` to `False` for this call.  Returns the effective `use_bm25`
flag and the (possibly reloaded) retriever state. -/
def loadStep (disk : String → Option BM25State) (fr : FusionRetriever) (use_bm25 : Bool) :
    Bool × FusionRetriever :=
  if use_bm25 = true ∧ fr.bm25.N = 0 then
    match disk fr.bm25_index_path with
    | some st => (use_bm25, setBM25 fr st)
    | none => (false, fr)
  else (use_bm25, fr)

/-- Embedding of `FusionRetriever.id_search` (src/search/hybrid.py lines 53-75): the
lazy-load prologue (`loadStep`), then
`embed_results = self.vec.search(query, topk * 2)`; vector-only calls
return `[c["id"] for c in embed_results[:topk]]`, otherwise
`bm25_results = self.bm25.search(query, topk * 2)` is fused with
`weighted_fusion`.  No input validation of any kind is present in the
source.  The result is the id list together with the post-call retriever
state. -/
def id_search (disk : String → Option BM25State) (fr : FusionRetriever)
    (query : String) (topk : ℕ) (use_bm25 : Bool) : List String × FusionRetriever :=
  if (loadStep disk fr use_bm25).1 = false then
    ((((loadStep disk fr use_bm25).2.vecSearch query (topk * 2)).take topk).map Chunk.id,
      (loadStep disk fr use_bm25).2)
  else
    (weighted_fusion (loadStep disk fr use_bm25).2.alpha
      ((loadStep disk fr use_bm25).2.bm25.searchFn query (topk * 2))
      ((loadStep disk fr use_bm25).2.vecSearch query (topk * 2)) topk,
      (loadStep disk fr use_bm25).2)

/-- Side-effecting operations of `FusionRetriever.build_index`
(src/search/hybrid.py lines 14-17), in program order:
`self.bm25.build_index(chunks)`, then
`self.bm25.save_index(self.bm25_index_path)`, then
`self.vec.build_index(chunks)`.  The constructor `vecSave` exists in the
event vocabulary so that "the fusion retriever never persists the vector
index" is expressible; the source emits no such operation. -/
inductive BuildEvent where
  | bm25Build
  | bm25Save (path : String)
  | vecBuild
  | vecSave (path : String)
  deriving DecidableEq

/-- Recognizer for a vector-index persistence event. -/
def isVecSave : BuildEvent → Bool
  | .vecSave _ => true
  | _ => false

/-- The operation trace of `FusionRetriever.build_index` (lines 14-17). -/
def build_index_events (fr : FusionRetriever) (_chunks : List Chunk) : List BuildEvent :=
  [BuildEvent.bm25Build, BuildEvent.bm25Save fr.bm25_index_path, BuildEvent.vecBuild]

/-- Recognizer for a lexical-index persistence event. -/
def isSave : BuildEvent → Bool
  | .bm25Save _ => true
  | _ => false

/-- The ordering property asserted by the claim on `build_index`: every
persistence of the lexical index happens after both delegated builds, in
particular after the vector build. -/
@[reducible] def persistAfterBuilds (evs : List BuildEvent) : Prop :=
  ∀ i, i < evs.length → ∀ j, j < evs.length →
    isSave (evs.getD i BuildEvent.bm25Build) = true →
    evs.getD j BuildEvent.bm25Build = BuildEvent.vecBuild → j < i

/-- The 1-based rank of the first occurrence of `x`, counting from `r`
(0 when absent; only used under a membership guard). -/
def rankFrom : ℕ → List String → String → ℕ
  | _, [], _ => 0
  | r, y :: ys, x => if y = x then r else rankFrom (r + 1) ys x

/-- The 1-based position of `x` in a ranked result list. -/
def rankIn (l : List String) (x : String) : ℕ := rankFrom 1 l x

/-- The spec's weighted-fusion contribution of one list: `1 / rank` at the
1-based position of `x`, and 0 for a missing term. -/
def recipRank (l : List String) (x : String) : ℚ :=
  if x ∈ l then 1 / (rankIn l x : ℚ) else 0

/-- The spec's RRF contribution of one list: `1 / (c + rank)` at the
1-based position of `x`, and 0 for a missing term. -/
def rrfTerm (c : ℚ) (l : List String) (x : String) : ℚ :=
  if x ∈ l then 1 / (c + (rankIn l x : ℚ)) else 0

/-- Accumulated contribution of one ranked list to one key, rank counter
starting at `r`: the bookkeeping counterpart of `addRanked` for a single
key (first occurrence only, which matches the dict for duplicate-free
lists). -/
def contribFrom (g : ℕ → ℚ) : ℕ → List String → String → ℚ
  | _, [], _ => 0
  | r, y :: ys, x => if y = x then g r else contribFrom g (r + 1) ys x

/-- The association list pairing the items of `l` with `g` of their rank,
ranks counted from `r`. -/
def rankedPairs (g : ℕ → ℚ) : ℕ → List String → List (String × ℚ)
  | _, [] => []
  | r, x :: xs => (x, g r) :: rankedPairs g (r + 1) xs

/-- The association list giving every item of `l` the score 0. -/
def zeroPairs (l : List String) : List (String × ℚ) := l.map (fun x => (x, 0))

/-- The reciprocal of a rank, as a rational. -/
def invRank (r : ℕ) : ℚ := 1 / (r : ℚ)

/-- The canonical sorted shape of a weighted-fusion score dict at an
extreme `alpha`: the items of the dominating list `L` scored `1 / rank`
in list order, followed by the remaining candidates `Z` scored 0. -/
def targetList (L Z : List String) : List (String × ℚ) :=
  rankedPairs invRank 1 L ++ zeroPairs Z

/-- Test fixtures: the chunks named in the spec's worked scenarios. -/
def cA : Chunk := ⟨"A", ""⟩

/-- Test fixture chunk B. -/
def cB : Chunk := ⟨"B", ""⟩

/-- Test fixture chunk C. -/
def cC : Chunk := ⟨"C", ""⟩

/-- Test fixture chunk D. -/
def cD : Chunk := ⟨"D", ""⟩

/-- Test fixture chunk X. -/
def cX : Chunk := ⟨"X", ""⟩

/-- Test fixture chunk Y. -/
def cY : Chunk := ⟨"Y", ""⟩

/-- Test fixture chunk Z. -/
def cZ : Chunk := ⟨"Z", ""⟩

/-- A filesystem with no persisted BM25 index at any path. -/
def disk0 : String → Option BM25State := fun _ => none

/-- A retriever with unloaded lexical index whose vector search yields
`[X, Y, Z]` (truncated to the requested count). -/
def fr0 : FusionRetriever :=
  ⟨⟨0, fun _ _ => []⟩, fun _ n => [cX, cY, cZ].take n, 7 / 10, "indexes/bm25_index.pkl"⟩

/-- A retriever whose vector store holds only chunk X. -/
def frX : FusionRetriever :=
  ⟨⟨0, fun _ _ => []⟩, fun _ _ => [cX], 7 / 10, "indexes/bm25_index.pkl"⟩

/-- A retriever whose vector store holds only chunk Y. -/
def frY : FusionRetriever :=
  ⟨⟨0, fun _ _ => []⟩, fun _ _ => [cY], 7 / 10, "indexes/bm25_index.pkl"⟩

/-- A retriever whose vector search returns a list with a repeated id. -/
def frDup : FusionRetriever :=
  ⟨⟨0, fun _ _ => []⟩, fun _ _ => [cX, cX, cY], 7 / 10, "indexes/bm25_index.pkl"⟩

lemma scoreOf_updOrAppend (k : String) (v : ℚ) (x : String) :
    ∀ s : List (String × ℚ),
      scoreOf (updOrAppend s k v) x = if x = k then scoreOf s x + v else scoreOf s x := by
  intro s
  induction s with
  | nil =>
    by_cases h : x = k
    · simp [updOrAppend, scoreOf, h]
    · have h2 : ¬ k = x := fun hh => h hh.symm
      simp [updOrAppend, scoreOf, h, h2]
  | cons p t ih =>
    by_cases hp : p.1 = k
    · by_cases hx : x = k
      · have hpx : p.1 = x := by rw [hp, hx]
        simp [updOrAppend, scoreOf, hp, hpx, hx]
      · have hpx : ¬ p.1 = x := by rw [hp]; exact fun hh => hx hh.symm
        have hkx : ¬ k = x := fun hh => hx hh.symm
        simp [updOrAppend, scoreOf, hp, hpx, hx, hkx]
    · by_cases hpx : p.1 = x
      · have hxk : ¬ x = k := by rw [← hpx]; exact hp
        simp [updOrAppend, scoreOf, hp, hpx, hxk]
      · simp [updOrAppend, scoreOf, hp, hpx, ih]

lemma keysOf_updOrAppend (k : String) (v : ℚ) :
    ∀ s : List (String × ℚ),
      keysOf (updOrAppend s k v) = if k ∈ keysOf s then keysOf s else keysOf s ++ [k] := by
  intro s
  induction s with
  | nil => simp [updOrAppend, keysOf]
  | cons p t ih =>
    simp only [updOrAppend, keysOf, List.map_cons, List.mem_cons]
    simp only [keysOf] at ih
    by_cases hp : p.1 = k
    · rw [if_pos hp, if_pos (Or.inl hp.symm)]
      simp
    · have hk2 : ¬ k = p.1 := fun hh => hp hh.symm
      rw [if_neg hp]
      by_cases hk : k ∈ List.map Prod.fst t
      · rw [if_pos (Or.inr hk)]
        simp [ih, hk]
      · have hnot : ¬ (k = p.1 ∨ k ∈ List.map Prod.fst t) := by tauto
        rw [if_neg hnot]
        simp [ih, hk]

lemma mem_keysOf_updOrAppend (s : List (String × ℚ)) (k : String) (v : ℚ) (x : String) :
    x ∈ keysOf (updOrAppend s k v) ↔ x ∈ keysOf s ∨ x = k := by
  rw [keysOf_updOrAppend]
  by_cases hk : k ∈ keysOf s
  · simp only [if_pos hk]
    constructor
    · exact fun h => Or.inl h
    · rintro (h | rfl)
      · exact h
      · exact hk
  · simp [if_neg hk]

lemma nodup_keysOf_updOrAppend (s : List (String × ℚ)) (k : String) (v : ℚ)
    (h : (keysOf s).Nodup) : (keysOf (updOrAppend s k v)).Nodup := by
  rw [keysOf_updOrAppend]
  by_cases hk : k ∈ keysOf s
  · simpa [hk] using h
  · simp only [if_neg hk]
    refine List.Nodup.append h (List.nodup_singleton k) ?_
    intro a ha hb
    simp only [List.mem_singleton] at hb
    subst hb; exact hk ha

lemma contribFrom_of_not_mem (g : ℕ → ℚ) (l : List String) (x : String)
    (h : x ∉ l) : ∀ r, contribFrom g r l x = 0 := by
  induction l with
  | nil => intro r; simp [contribFrom]
  | cons y ys ih =>
    intro r
    simp only [List.mem_cons, not_or] at h
    have hy : ¬ y = x := fun hh => h.1 hh.symm
    simp [contribFrom, hy, ih h.2]

lemma scoreOf_addRanked (g : ℕ → ℚ) (l : List String) (x : String) (hl : l.Nodup) :
    ∀ (r : ℕ) (s : List (String × ℚ)),
      scoreOf (addRanked g r s l) x = scoreOf s x + contribFrom g r l x := by
  induction l with
  | nil => intro r s; simp [addRanked, contribFrom]
  | cons y ys ih =>
    intro r s
    simp only [List.nodup_cons] at hl
    simp only [addRanked, contribFrom]
    rw [ih hl.2, scoreOf_updOrAppend]
    by_cases hx : x = y
    · subst hx
      rw [if_pos rfl, if_pos rfl, contribFrom_of_not_mem g ys x hl.1]
      ring
    · have hy : ¬ y = x := fun hh => hx hh.symm
      rw [if_neg hx, if_neg hy]

lemma mem_keysOf_addRanked (g : ℕ → ℚ) (l : List String) (x : String) :
    ∀ (r : ℕ) (s : List (String × ℚ)),
      x ∈ keysOf (addRanked g r s l) ↔ x ∈ keysOf s ∨ x ∈ l := by
  induction l with
  | nil => intro r s; simp [addRanked]
  | cons y ys ih =>
    intro r s
    simp only [addRanked]
    rw [ih, mem_keysOf_updOrAppend]
    simp only [List.mem_cons]
    tauto

lemma nodup_keysOf_addRanked (g : ℕ → ℚ) (l : List String) :
    ∀ (r : ℕ) (s : List (String × ℚ)), (keysOf s).Nodup →
      (keysOf (addRanked g r s l)).Nodup := by
  induction l with
  | nil => intro r s h; simpa [addRanked] using h
  | cons y ys ih =>
    intro r s h
    simp only [addRanked]
    exact ih (r + 1) _ (nodup_keysOf_updOrAppend s y (g r) h)

lemma contribFrom_eq_rank (g : ℕ → ℚ) (l : List String) (x : String) :
    ∀ r, contribFrom g r l x = if x ∈ l then g (rankFrom r l x) else 0 := by
  induction l with
  | nil => intro r; simp [contribFrom]
  | cons y ys ih =>
    intro r
    simp only [contribFrom, rankFrom, List.mem_cons]
    by_cases hy : y = x
    · subst hy; simp
    · have hx : ¬ x = y := fun hh => hy hh.symm
      simp [hy, hx, ih (r + 1)]

lemma contribFrom_mul (a : ℚ) (g : ℕ → ℚ) (l : List String) (x : String) :
    ∀ r, contribFrom (fun i => a * g i) r l x = a * contribFrom g r l x := by
  induction l with
  | nil => intro r; simp [contribFrom]
  | cons y ys ih =>
    intro r
    by_cases hy : y = x
    · simp [contribFrom, hy]
    · simp [contribFrom, hy, ih (r + 1)]

lemma contribFrom_recip (l : List String) (x : String) :
    contribFrom (fun r => 1 / (r : ℚ)) 1 l x = recipRank l x := by
  rw [contribFrom_eq_rank, recipRank, rankIn]

lemma contribFrom_rrf (c : ℚ) (l : List String) (x : String) :
    contribFrom (fun r => 1 / (c + (r : ℚ))) 1 l x = rrfTerm c l x := by
  rw [contribFrom_eq_rank, rrfTerm, rankIn]

lemma scoreOf_weightedScores (alpha : ℚ) (b v : List String) (x : String)
    (hb : b.Nodup) (hv : v.Nodup) :
    scoreOf (weightedScores alpha b v) x
      = alpha * recipRank b x + (1 - alpha) * recipRank v x := by
  have h1 : (fun r : ℕ => alpha * (1 / (r : ℚ))) = fun r : ℕ => alpha * (1 / (r : ℚ)) := rfl
  rw [weightedScores, scoreOf_addRanked _ _ _ hv, scoreOf_addRanked _ _ _ hb]
  simp only [scoreOf]
  rw [contribFrom_mul alpha (fun r => 1 / (r : ℚ)) b x,
    contribFrom_mul (1 - alpha) (fun r => 1 / (r : ℚ)) v x,
    contribFrom_recip, contribFrom_recip]
  ring

lemma scoreOf_rrfScores (c : ℚ) (b v : List String) (x : String)
    (hb : b.Nodup) (hv : v.Nodup) :
    scoreOf (rrfScores c b v) x = rrfTerm c b x + rrfTerm c v x := by
  rw [rrfScores, scoreOf_addRanked _ _ _ hv, scoreOf_addRanked _ _ _ hb]
  simp only [scoreOf]
  rw [contribFrom_rrf, contribFrom_rrf]
  ring

lemma insDesc_perm (x : String × ℚ) (l : List (String × ℚ)) :
    List.Perm (insDesc x l) (x :: l) := by
  induction l with
  | nil => simp [insDesc]
  | cons y ys ih =>
    by_cases h : y.2 ≤ x.2
    · simp [insDesc, h]
    · rw [insDesc, if_neg h]
      exact (ih.cons y).trans (List.Perm.swap x y ys)

lemma sortDesc_perm (l : List (String × ℚ)) : List.Perm (sortDesc l) l := by
  induction l with
  | nil => simp [sortDesc]
  | cons x xs ih =>
    exact (insDesc_perm x (sortDesc xs)).trans (ih.cons x)

lemma mem_insDesc (x y : String × ℚ) (l : List (String × ℚ)) :
    y ∈ insDesc x l ↔ y = x ∨ y ∈ l := by
  rw [(insDesc_perm x l).mem_iff]
  simp

lemma insDesc_pairwise (x : String × ℚ) (l : List (String × ℚ))
    (h : l.Pairwise (fun p1 p2 => p2.2 ≤ p1.2)) :
    (insDesc x l).Pairwise (fun p1 p2 => p2.2 ≤ p1.2) := by
  induction l with
  | nil => simp [insDesc]
  | cons y ys ih =>
    rw [List.pairwise_cons] at h
    by_cases hle : y.2 ≤ x.2
    · rw [insDesc, if_pos hle]
      refine List.Pairwise.cons ?_ (List.Pairwise.cons h.1 h.2)
      intro z hz
      rcases List.mem_cons.mp hz with rfl | hz2
      · exact hle
      · exact le_trans (h.1 z hz2) hle
    · rw [insDesc, if_neg hle]
      refine List.Pairwise.cons ?_ (ih h.2)
      intro z hz
      rcases (mem_insDesc x z ys).mp hz with rfl | hz2
      · exact le_of_not_le hle
      · exact h.1 z hz2

lemma sortDesc_pairwise (l : List (String × ℚ)) :
    (sortDesc l).Pairwise (fun p1 p2 => p2.2 ≤ p1.2) := by
  induction l with
  | nil => simp [sortDesc]
  | cons x xs ih => exact insDesc_pairwise x (sortDesc xs) ih

lemma filter_insDesc (x : String × ℚ) (l : List (String × ℚ)) (s : ℚ)
    (h : l.Pairwise (fun p1 p2 => p2.2 ≤ p1.2)) :
    (insDesc x l).filter (fun p => decide (p.2 = s))
      = if x.2 = s then x :: l.filter (fun p => decide (p.2 = s))
        else l.filter (fun p => decide (p.2 = s)) := by
  induction l with
  | nil =>
    by_cases hx : x.2 = s
    · simp [insDesc, List.filter, hx]
    · simp [insDesc, List.filter, hx]
  | cons y ys ih =>
    rw [List.pairwise_cons] at h
    by_cases hle : y.2 ≤ x.2
    · rw [insDesc, if_pos hle]
      by_cases hx : x.2 = s
      · simp [List.filter_cons, hx]
      · simp [List.filter_cons, hx]
    · rw [insDesc, if_neg hle]
      have hlt : x.2 < y.2 := lt_of_not_le hle
      by_cases hy : y.2 = s
      · have hx : ¬ x.2 = s := by
          intro hh
          rw [hh, hy] at hlt
          exact lt_irrefl s hlt
        simp [List.filter_cons, hy, hx, ih h.2]
      · by_cases hx : x.2 = s
        · simp [List.filter_cons, hy, hx, ih h.2]
        · simp [List.filter_cons, hy, hx, ih h.2]

lemma sortDesc_filter (l : List (String × ℚ)) (s : ℚ) :
    (sortDesc l).filter (fun p => decide (p.2 = s))
      = l.filter (fun p => decide (p.2 = s)) := by
  induction l with
  | nil => simp [sortDesc]
  | cons x xs ih =>
    rw [sortDesc, filter_insDesc x (sortDesc xs) s (sortDesc_pairwise xs), List.filter_cons]
    by_cases hx : x.2 = s
    · simp [hx, ih]
    · simp [hx, ih]

lemma scoreOf_of_not_mem_keys (x : String) :
    ∀ s : List (String × ℚ), x ∉ keysOf s → scoreOf s x = 0 := by
  intro s
  induction s with
  | nil => intro _; rfl
  | cons p t ih =>
    intro h
    simp only [keysOf, List.map_cons, List.mem_cons, not_or] at h
    have hp : ¬ p.1 = x := fun hh => h.1 hh.symm
    rw [scoreOf, if_neg hp]
    exact ih (by simpa [keysOf] using h.2)

lemma scoreOf_append (x : String) (t : List (String × ℚ)) :
    ∀ s : List (String × ℚ),
      scoreOf (s ++ t) x = if x ∈ keysOf s then scoreOf s x else scoreOf t x := by
  intro s
  induction s with
  | nil => simp [keysOf, scoreOf]
  | cons p ps ih =>
    simp only [List.cons_append, scoreOf, keysOf, List.map_cons, List.mem_cons]
    by_cases hp : p.1 = x
    · simp [hp]
    · have hxp : ¬ x = p.1 := fun hh => hp hh.symm
      simp only [keysOf] at ih
      by_cases hx : x ∈ List.map Prod.fst ps
      · simp [hp, hxp, hx, ih]
      · simp [hp, hxp, hx, ih]

lemma scoreOf_middle (x k : String) (w : ℚ) (t : List (String × ℚ)) (hxk : ¬ x = k) :
    ∀ s : List (String × ℚ), scoreOf (s ++ (k, w) :: t) x = scoreOf (s ++ t) x := by
  intro s
  induction s with
  | nil =>
    have hk : ¬ k = x := fun hh => hxk hh.symm
    simp [scoreOf, hk]
  | cons p ps ih =>
    simp only [List.cons_append, scoreOf]
    by_cases hp : p.1 = x
    · simp [hp]
    · simp [hp, ih]

lemma perm_of_scores :
    ∀ (l₁ l₂ : List (String × ℚ)), (keysOf l₁).Nodup → (keysOf l₂).Nodup →
      (∀ x, x ∈ keysOf l₁ ↔ x ∈ keysOf l₂) → (∀ x, scoreOf l₁ x = scoreOf l₂ x) →
      List.Perm l₁ l₂ := by
  intro l₁
  induction l₁ with
  | nil =>
    intro l₂ _ _ hmem _
    cases l₂ with
    | nil => exact List.Perm.refl []
    | cons p t =>
      exfalso
      have : p.1 ∈ keysOf ([] : List (String × ℚ)) := by
        rw [hmem]
        simp [keysOf]
      simp [keysOf] at this
  | cons q t₁ ih =>
    intro l₂ hn₁ hn₂ hmem hsc
    have hq : q.1 ∈ keysOf l₂ := by
      rw [← hmem]
      simp [keysOf]
    have hq' : ∃ p, p ∈ l₂ ∧ p.1 = q.1 := by
      simp only [keysOf] at hq
      obtain ⟨p, hp, hpq⟩ := List.mem_map.mp hq
      exact ⟨p, hp, hpq⟩
    obtain ⟨p, hp, hpq⟩ := hq'
    obtain ⟨s, t, rfl⟩ := List.append_of_mem hp
    have hksplit : keysOf (s ++ p :: t) = keysOf s ++ p.1 :: keysOf t := by
      simp [keysOf]
    have hn₂' := hn₂
    rw [hksplit, List.nodup_append] at hn₂'
    have hps : p.1 ∉ keysOf s := by
      intro hin
      exact (hn₂'.2.2 hin) (by simp)
    have hpt : p.1 ∉ keysOf t := by
      have := hn₂'.2.1
      rw [List.nodup_cons] at this
      exact this.1
    have hqt : q.1 ∉ keysOf t₁ := by
      have := hn₁
      simp only [keysOf, List.map_cons, List.nodup_cons] at this
      simpa [keysOf] using this.1
    have hval : q.2 = p.2 := by
      have h1 : scoreOf (q :: t₁) q.1 = q.2 := by simp [scoreOf]
      have h2 : scoreOf (s ++ p :: t) q.1 = p.2 := by
        rw [scoreOf_append]
        rw [if_neg (fun hin => hps (hpq ▸ hin))]
        simp [scoreOf, hpq]
      have h3 := hsc q.1
      rw [h1, h2] at h3
      exact h3
    have hperm2 : List.Perm (s ++ p :: t) (p :: (s ++ t)) := List.perm_middle
    have hkeq : ∀ x, x ∈ keysOf t₁ ↔ x ∈ keysOf (s ++ t) := by
      intro x
      constructor
      · intro hx
        have hxq : ¬ x = q.1 := by
          intro hh
          rw [hh] at hx
          exact hqt hx
        have : x ∈ keysOf (s ++ p :: t) := by
          rw [← hmem]
          simp [keysOf]
          right
          simpa [keysOf] using hx
        simp only [keysOf, List.map_append, List.map_cons, List.mem_append,
          List.mem_cons] at this
        simp only [keysOf, List.map_append, List.mem_append]
        rcases this with h | h
        · left; exact h
        · rcases h with h | h
          · exfalso
            rw [hpq] at h
            exact hxq h
          · right; exact h
      · intro hx
        have hxq : ¬ x = q.1 := by
          intro hh
          subst hh
          simp only [keysOf, List.map_append, List.mem_append] at hx
          rw [← hpq] at hx
          rcases hx with h | h
          · exact hps h
          · exact hpt h
        have : x ∈ keysOf (q :: t₁) := by
          rw [hmem]
          simp only [keysOf, List.map_append, List.map_cons, List.mem_append,
            List.mem_cons]
          simp only [keysOf, List.map_append, List.mem_append] at hx
          rcases hx with h | h
          · left; exact h
          · right; right; exact h
        simp only [keysOf, List.map_cons, List.mem_cons] at this
        rcases this with h | h
        · exact absurd h hxq
        · simpa [keysOf] using h
    have hseq : ∀ x, scoreOf t₁ x = scoreOf (s ++ t) x := by
      intro x
      by_cases hxq : x = q.1
      · subst hxq
        rw [scoreOf_of_not_mem_keys _ t₁ hqt, scoreOf_of_not_mem_keys]
        intro hin
        simp only [keysOf, List.map_append, List.mem_append] at hin
        rw [← hpq] at hin
        rcases hin with h | h
        · exact hps h
        · exact hpt h
      · have hq1x : ¬ q.1 = x := fun hh => hxq hh.symm
        have h1 : scoreOf t₁ x = scoreOf (q :: t₁) x := by simp [scoreOf, hq1x]
        rw [h1, hsc x]
        have hxp : ¬ x = p.1 := by rw [hpq]; exact hxq
        exact scoreOf_middle x p.1 p.2 t hxp s

    have hn₁' : (keysOf t₁).Nodup := by
      have := hn₁
      simp only [keysOf, List.map_cons, List.nodup_cons] at this
      simpa [keysOf] using this.2
    have hn₂'' : (keysOf (s ++ t)).Nodup := by
      have h1 : (keysOf s).Nodup := hn₂'.1
      have h2 : (keysOf t).Nodup := by
        have := hn₂'.2.1
        rw [List.nodup_cons] at this
        exact this.2
      simp only [keysOf, List.map_append]
      rw [List.nodup_append]
      refine ⟨h1, h2, ?_⟩
      intro a ha hb
      exact (hn₂'.2.2 ha) (by simp; right; exact hb)
    have ihp : List.Perm t₁ (s ++ t) := ih (s ++ t) hn₁' hn₂'' hkeq hseq
    have : List.Perm (q :: t₁) (p :: (s ++ t)) := by
      have hqp : q = p := Prod.ext hpq.symm hval
      rw [hqp]
      exact ihp.cons p
    exact this.trans hperm2.symm

lemma keysOf_rankedPairs (g : ℕ → ℚ) : ∀ (r : ℕ) (l : List String),
    keysOf (rankedPairs g r l) = l := by
  intro r l
  induction l generalizing r with
  | nil => rfl
  | cons x xs ih => simp [rankedPairs, keysOf, List.map_cons] at ih ⊢; exact ih (r + 1)

lemma length_rankedPairs (g : ℕ → ℚ) : ∀ (r : ℕ) (l : List String),
    (rankedPairs g r l).length = l.length := by
  intro r l
  induction l generalizing r with
  | nil => rfl
  | cons x xs ih => simp [rankedPairs, ih (r + 1)]

lemma scoreOf_rankedPairs (g : ℕ → ℚ) (x : String) : ∀ (r : ℕ) (l : List String),
    scoreOf (rankedPairs g r l) x = contribFrom g r l x := by
  intro r l
  induction l generalizing r with
  | nil => rfl
  | cons y ys ih =>
    simp only [rankedPairs, scoreOf, contribFrom]
    by_cases hy : y = x
    · simp [hy]
    · simp [hy, ih (r + 1)]

lemma mem_rankedPairs (g : ℕ → ℚ) (p : String × ℚ) : ∀ (r : ℕ) (l : List String),
    p ∈ rankedPairs g r l → ∃ m, r ≤ m ∧ m < r + l.length ∧ p.2 = g m := by
  intro r l
  induction l generalizing r with
  | nil => intro h; simp [rankedPairs] at h
  | cons x xs ih =>
    intro h
    simp only [rankedPairs, List.mem_cons] at h
    rcases h with rfl | h
    · exact ⟨r, le_refl r, by simp, rfl⟩
    · obtain ⟨m, h1, h2, h3⟩ := ih (r + 1) h
      exact ⟨m, by omega, by simp at h2 ⊢; omega, h3⟩

lemma getElem_rankedPairs (g : ℕ → ℚ) : ∀ (l : List String) (r i : ℕ)
    (h2 : i < l.length),
    (rankedPairs g r l).get ⟨i, by rw [length_rankedPairs]; exact h2⟩
      = (l.get ⟨i, h2⟩, g (r + i)) := by
  intro l
  induction l with
  | nil => intro r i h2; simp at h2
  | cons x xs ih =>
    intro r i h2
    cases i with
    | zero => simp [rankedPairs]
    | succ n =>
      have hn : n < xs.length := by simpa using h2
      have := ih (r + 1) n hn
      simp only [rankedPairs, List.get_cons_succ]
      rw [this]
      have harith : r + 1 + n = r + (n + 1) := by omega
      rw [harith]

lemma pairwise_rankedPairs (g : ℕ → ℚ) (hg : ∀ i j, 1 ≤ i → i ≤ j → g j ≤ g i) :
    ∀ (r : ℕ), 1 ≤ r → ∀ (l : List String),
    (rankedPairs g r l).Pairwise (fun p1 p2 => p2.2 ≤ p1.2) := by
  intro r hr l
  induction l generalizing r with
  | nil => simp [rankedPairs]
  | cons x xs ih =>
    simp only [rankedPairs]
    refine List.Pairwise.cons ?_ (ih (r + 1) (by omega))
    intro p hp
    obtain ⟨m, h1, _, h3⟩ := mem_rankedPairs g p (r + 1) xs hp
    rw [h3]
    exact hg r m hr (by omega)

lemma mem_zeroPairs (p : String × ℚ) (l : List String) (h : p ∈ zeroPairs l) :
    p.2 = 0 := by
  simp only [zeroPairs, List.mem_map] at h
  obtain ⟨y, _, rfl⟩ := h
  rfl

lemma pairwise_zeroPairs (l : List String) :
    (zeroPairs l).Pairwise (fun p1 p2 => p2.2 ≤ p1.2) := by
  induction l with
  | nil => simp [zeroPairs]
  | cons x xs ih =>
    simp only [zeroPairs, List.map_cons]
    refine List.Pairwise.cons ?_ (by simpa [zeroPairs] using ih)
    intro p hp
    have := mem_zeroPairs p xs (by simpa [zeroPairs] using hp)
    simp [this]

lemma keysOf_zeroPairs (l : List String) : keysOf (zeroPairs l) = l := by
  induction l with
  | nil => rfl
  | cons x xs ih =>
    simp only [keysOf, zeroPairs, List.map_cons, List.map_map] at ih ⊢
    rw [ih]

lemma scoreOf_zeroPairs (x : String) : ∀ l : List String, scoreOf (zeroPairs l) x = 0 := by
  intro l
  induction l with
  | nil => rfl
  | cons y ys ih =>
    simp only [zeroPairs, List.map_cons, scoreOf] at ih ⊢
    by_cases hy : y = x
    · simp [hy]
    · simp [hy, ih]

lemma filter_zeroPairs (s : ℚ) (hs : ¬ s = 0) :
    ∀ l : List String, (zeroPairs l).filter (fun p => decide (p.2 = s)) = [] := by
  intro l
  induction l with
  | nil => rfl
  | cons y ys ih =>
    have h0 : ¬ (0 : ℚ) = s := fun hh => hs hh.symm
    simp only [zeroPairs, List.map_cons, List.filter_cons] at ih ⊢
    simp [h0, ih]

lemma filter_length_rankedPairs (g : ℕ → ℚ) (hg : ∀ i j, g i = g j → i = j) (m : ℕ) :
    ∀ (r : ℕ) (l : List String),
    ((rankedPairs g r l).filter (fun p => decide (p.2 = g m))).length
      = if r ≤ m ∧ m < r + l.length then 1 else 0 := by
  intro r l
  induction l generalizing r with
  | nil =>
    simp only [rankedPairs, List.filter_nil, List.length_nil, List.length_nil]
    rw [if_neg (by omega)]
  | cons x xs ih =>
    simp only [rankedPairs, List.filter_cons]
    by_cases hrm : r = m
    · subst hrm
      have ht : (decide ((g r) = g r)) = true := by simp
      rw [ht, if_pos rfl, List.length_cons, ih (r + 1)]
      rw [if_neg (by omega)]
      rw [if_pos (by simp only [List.length_cons]; omega)]
    · have hf : (decide ((g r) = g m)) = false := by
        simp only [decide_eq_false_iff_not]
        intro hh
        exact hrm (hg r m hh)
      rw [hf, if_neg (by simp), ih (r + 1)]
      by_cases hc : r + 1 ≤ m ∧ m < r + 1 + xs.length
      · rw [if_pos hc, if_pos (by simp only [List.length_cons]; omega)]
      · rw [if_neg hc, if_neg (by simp only [List.length_cons]; omega)]

lemma invRank_injective : ∀ i j : ℕ, invRank i = invRank j → i = j := by
  intro i j h
  rw [invRank, invRank, one_div, one_div] at h
  have h2 : (i : ℚ) = (j : ℚ) := inv_injective h
  exact_mod_cast h2

lemma invRank_ne_zero (m : ℕ) (hm : 1 ≤ m) : ¬ invRank m = 0 := by
  rw [invRank]
  refine one_div_ne_zero ?_
  have : (0 : ℚ) < (m : ℚ) := by exact_mod_cast hm
  exact ne_of_gt this

lemma invRank_antitone (i j : ℕ) (hi : 1 ≤ i) (hij : i ≤ j) : invRank j ≤ invRank i := by
  rw [invRank, invRank]
  have h0 : (0 : ℚ) < (i : ℚ) := by exact_mod_cast hi
  have h1 : (i : ℚ) ≤ (j : ℚ) := by exact_mod_cast hij
  exact one_div_le_one_div_of_le h0 h1

lemma invRank_nonneg (m : ℕ) : 0 ≤ invRank m := by
  rw [invRank]
  positivity

lemma keysOf_targetList (L Z : List String) : keysOf (targetList L Z) = L ++ Z := by
  rw [targetList, keysOf, List.map_append, ← keysOf, ← keysOf, keysOf_rankedPairs,
    keysOf_zeroPairs]

lemma length_targetList (L Z : List String) :
    (targetList L Z).length = L.length + Z.length := by
  rw [targetList, List.length_append, length_rankedPairs, zeroPairs, List.length_map]

lemma scoreOf_targetList (L Z : List String) (x : String) :
    scoreOf (targetList L Z) x = recipRank L x := by
  rw [targetList, scoreOf_append]
  by_cases hx : x ∈ L
  · rw [if_pos (by rw [keysOf_rankedPairs]; exact hx), scoreOf_rankedPairs,
      contribFrom_eq_rank, if_pos hx, recipRank, if_pos hx, rankIn]
    rfl
  · rw [if_neg (by rw [keysOf_rankedPairs]; exact hx), scoreOf_zeroPairs,
      recipRank, if_neg hx]

lemma sorted_targetList (L Z : List String) :
    (targetList L Z).Pairwise (fun p1 p2 => p2.2 ≤ p1.2) := by
  rw [targetList, List.pairwise_append]
  refine ⟨pairwise_rankedPairs invRank invRank_antitone 1 (le_refl 1) L,
    pairwise_zeroPairs Z, ?_⟩
  intro p hp q hq
  obtain ⟨m, h1, _, h3⟩ := mem_rankedPairs invRank p 1 L hp
  rw [mem_zeroPairs q Z hq, h3]
  exact invRank_nonneg m

lemma getElem_targetList (L Z : List String) (i : ℕ) (hi : i < L.length)
    (hiT : i < (targetList L Z).length) :
    (targetList L Z).get ⟨i, hiT⟩ = (L.get ⟨i, hi⟩, invRank (1 + i)) := by
  have h1 : i < (rankedPairs invRank 1 L).length := by rw [length_rankedPairs]; exact hi
  have h2 : (targetList L Z).get ⟨i, hiT⟩ = (rankedPairs invRank 1 L).get ⟨i, h1⟩ := by
    show (rankedPairs invRank 1 L ++ zeroPairs Z).get ⟨i, hiT⟩ = _
    simp [List.getElem_append_left, h1]
  rw [h2]
  exact getElem_rankedPairs invRank L 1 i hi

lemma filter_length_targetList (L Z : List String) (i : ℕ) (hi : i < L.length) :
    ((targetList L Z).filter (fun p => decide (p.2 = invRank (1 + i)))).length = 1 := by
  rw [targetList, List.filter_append, List.length_append]
  rw [filter_length_rankedPairs invRank invRank_injective (1 + i) 1 L]
  rw [if_pos ⟨by omega, by omega⟩]
  rw [filter_zeroPairs _ (invRank_ne_zero (1 + i) (by omega))]
  rfl

lemma sorted_take_eq (scores : List (String × ℚ)) (L Z : List String) (k : ℕ)
    (hL : L.Nodup) (hZ : Z.Nodup) (hdisj : ∀ x, x ∈ Z → x ∉ L)
    (hnk : (keysOf scores).Nodup)
    (hmem : ∀ x, x ∈ keysOf scores ↔ x ∈ L ∨ x ∈ Z)
    (hsc : ∀ x, scoreOf scores x = recipRank L x)
    (hk : k ≤ L.length) :
    ((sortDesc scores).take k).map Prod.fst = L.take k := by
  have hTnodup : (keysOf (targetList L Z)).Nodup := by
    rw [keysOf_targetList, List.nodup_append]
    exact ⟨hL, hZ, fun a ha hb => hdisj a hb ha⟩
  have hperm : List.Perm scores (targetList L Z) := by
    refine perm_of_scores scores (targetList L Z) hnk hTnodup ?_ ?_
    · intro x
      rw [hmem, keysOf_targetList]
      simp [List.mem_append]
    · intro x
      rw [hsc, scoreOf_targetList]
  have hout : List.Perm (sortDesc scores) (targetList L Z) :=
    (sortDesc_perm scores).trans hperm
  haveI : IsAntisymm ℚ (fun a b : ℚ => b ≤ a) := ⟨fun a b h1 h2 => le_antisymm h2 h1⟩
  have hsnd : (sortDesc scores).map Prod.snd = (targetList L Z).map Prod.snd := by
    have hs1 : List.Sorted (fun a b : ℚ => b ≤ a) ((sortDesc scores).map Prod.snd) :=
      List.Pairwise.map Prod.snd (fun a b h => h) (sortDesc_pairwise scores)
    have hs2 : List.Sorted (fun a b : ℚ => b ≤ a) ((targetList L Z).map Prod.snd) :=
      List.Pairwise.map Prod.snd (fun a b h => h) (sorted_targetList L Z)
    exact List.eq_of_perm_of_sorted (hout.map Prod.snd) hs1 hs2
  have hlen : (sortDesc scores).length = L.length + Z.length := by
    rw [hout.length_eq, length_targetList]
  have hforce : ∀ (i : ℕ), i < k →
      ∀ (hiS : i < (sortDesc scores).length) (hiT : i < (targetList L Z).length),
      (sortDesc scores).get ⟨i, hiS⟩ = (targetList L Z).get ⟨i, hiT⟩ := by
    intro i hik hiS hiT
    have hiL : i < L.length := lt_of_lt_of_le hik hk
    have hTi : (targetList L Z).get ⟨i, hiT⟩ = (L.get ⟨i, hiL⟩, invRank (1 + i)) :=
      getElem_targetList L Z i hiL hiT
    have hms : i < ((sortDesc scores).map Prod.snd).length := by
      rw [List.length_map]; exact hiS
    have hmt : i < ((targetList L Z).map Prod.snd).length := by
      rw [List.length_map]; exact hiT
    have h1 : ((sortDesc scores).map Prod.snd)[i]?
        = ((targetList L Z).map Prod.snd)[i]? := by
      rw [hsnd]
    rw [List.getElem?_eq_getElem hms, List.getElem?_eq_getElem hmt] at h1
    have h2 : ((sortDesc scores).map Prod.snd).get ⟨i, hms⟩
        = ((targetList L Z).map Prod.snd).get ⟨i, hmt⟩ := by
      have := Option.some.inj h1
      simpa using this
    have h3 : ((sortDesc scores).get ⟨i, hiS⟩).2
        = ((targetList L Z).get ⟨i, hiT⟩).2 := by
      simpa using h2
    have hsndi : ((sortDesc scores).get ⟨i, hiS⟩).2 = invRank (1 + i) :=
      h3.trans (congrArg Prod.snd hTi)
    have hmemi : (sortDesc scores).get ⟨i, hiS⟩ ∈ targetList L Z :=
      hout.mem_iff.mp (List.get_mem _ _ _)
    have hfl := filter_length_targetList L Z i hiL
    obtain ⟨u, hu⟩ := List.length_eq_one.mp hfl
    have hu1 : (sortDesc scores).get ⟨i, hiS⟩
        ∈ (targetList L Z).filter (fun p => decide (p.2 = invRank (1 + i))) := by
      rw [List.mem_filter]
      refine ⟨hmemi, ?_⟩
      simp only [hsndi]
      simp
    have hu2 : (targetList L Z).get ⟨i, hiT⟩
        ∈ (targetList L Z).filter (fun p => decide (p.2 = invRank (1 + i))) := by
      rw [List.mem_filter]
      refine ⟨List.get_mem _ _ _, ?_⟩
      simp only [hTi]
      simp
    rw [hu] at hu1 hu2
    simp only [List.mem_singleton] at hu1 hu2
    rw [hu1, hu2]
  refine List.ext_get ?_ ?_
  · rw [List.length_map, List.length_take, List.length_take, hlen]
    omega
  · intro n h1 h2
    have hnk2 : n < k := by
      rw [List.length_map, List.length_take] at h1
      omega
    have hnS : n < (sortDesc scores).length := by rw [hlen]; omega
    have hnT : n < (targetList L Z).length := by rw [length_targetList]; omega
    have hnL : n < L.length := lt_of_lt_of_le hnk2 hk
    have htk : n < ((sortDesc scores).take k).length := by
      rw [List.length_map] at h1
      exact h1
    have hg1 : (((sortDesc scores).take k).map Prod.fst).get ⟨n, h1⟩
        = (((sortDesc scores).take k).get ⟨n, htk⟩).1 := by
      simp
    have hg2 : ((sortDesc scores).take k).get ⟨n, htk⟩
        = (sortDesc scores).get ⟨n, hnS⟩ := by
      simp [List.getElem_take]
    have hg3 : (L.take k).get ⟨n, h2⟩ = L.get ⟨n, hnL⟩ := by
      simp [List.getElem_take]
    rw [hg1, hg2, hforce n hnk2 hnS hnT, getElem_targetList L Z n hnL hnT, hg3]

lemma loadStep_skip (disk : String → Option BM25State) (fr : FusionRetriever) (b : Bool)
    (h : ¬ (b = true ∧ fr.bm25.N = 0)) : loadStep disk fr b = (b, fr) := by
  rw [loadStep, if_neg h]

lemma loadStep_found (disk : String → Option BM25State) (fr : FusionRetriever) (b : Bool)
    (st : BM25State) (h : b = true ∧ fr.bm25.N = 0)
    (hd : disk fr.bm25_index_path = some st) : loadStep disk fr b = (b, setBM25 fr st) := by
  rw [loadStep, if_pos h, hd]

lemma loadStep_missing (disk : String → Option BM25State) (fr : FusionRetriever) (b : Bool)
    (h : b = true ∧ fr.bm25.N = 0) (hd : disk fr.bm25_index_path = none) :
    loadStep disk fr b = (false, fr) := by
  rw [loadStep, if_pos h, hd]

lemma loadStep_preserves (disk : String → Option BM25State) (fr : FusionRetriever)
    (b : Bool) :
    (loadStep disk fr b).2.vecSearch = fr.vecSearch
    ∧ (loadStep disk fr b).2.alpha = fr.alpha
    ∧ (loadStep disk fr b).2.bm25_index_path = fr.bm25_index_path := by
  by_cases h : b = true ∧ fr.bm25.N = 0
  · cases hd : disk fr.bm25_index_path with
    | none => rw [loadStep_missing disk fr b h hd]; exact ⟨rfl, rfl, rfl⟩
    | some st => rw [loadStep_found disk fr b st h hd]; exact ⟨rfl, rfl, rfl⟩
  · rw [loadStep_skip disk fr b h]; exact ⟨rfl, rfl, rfl⟩

lemma id_search_state (disk : String → Option BM25State) (fr : FusionRetriever)
    (q : String) (k : ℕ) (b : Bool) :
    (id_search disk fr q k b).2 = (loadStep disk fr b).2 := by
  rw [id_search]
  split <;> rfl

lemma nodup_keysOf_weightedScores (alpha : ℚ) (b v : List String) :
    (keysOf (weightedScores alpha b v)).Nodup := by
  rw [weightedScores]
  exact nodup_keysOf_addRanked _ _ _ _ (nodup_keysOf_addRanked _ _ _ _ (by simp [keysOf]))

lemma weighted_fusion_nodup (alpha : ℚ) (b v : List Chunk) (k : ℕ) :
    (weighted_fusion alpha b v k).Nodup := by
  rw [weighted_fusion]
  have h1 : (keysOf (weightedScores alpha (b.map Chunk.id) (v.map Chunk.id))).Nodup :=
    nodup_keysOf_weightedScores alpha _ _
  have h2 : ((sortDesc (weightedScores alpha (b.map Chunk.id)
      (v.map Chunk.id))).map Prod.fst).Nodup := by
    rw [keysOf] at h1
    exact (((sortDesc_perm _).map Prod.fst).nodup_iff).mpr h1
  rw [List.map_take]
  exact List.Nodup.sublist (List.take_sublist _ _) h2

/-- C1: for duplicate-free ranked result lists, `weighted_fusion` assigns
each chunk id the score `alpha * (1/rank_bm25) + (1-alpha) * (1/rank_vec)`
with 1-based ranks and 0 for missing terms; it returns the ids of the
score dict sorted by descending score (a permutation of the dict, sorted
non-increasingly, with ties kept in dict insertion order, i.e.
first-encounter order with the lexical list enumerated first — the filter
conjunct states that equal-score entries keep their dict order), truncated
to `topk`; on lexical `[A,B,C]`, vector `[B,D,A]`, `alpha = 1/2`,
`topk = 2` the output is `[B, A]`. -/
theorem weighted_fusion_correct (alpha : ℚ) (b v : List Chunk) (topk : ℕ)
    (hb : (b.map Chunk.id).Nodup) (hv : (v.map Chunk.id).Nodup) :
    (∀ x, scoreOf (weightedScores alpha (b.map Chunk.id) (v.map Chunk.id)) x
        = alpha * recipRank (b.map Chunk.id) x
          + (1 - alpha) * recipRank (v.map Chunk.id) x)
    ∧ weighted_fusion alpha b v topk
        = ((sortDesc (weightedScores alpha (b.map Chunk.id)
            (v.map Chunk.id))).take topk).map Prod.fst
    ∧ List.Perm (sortDesc (weightedScores alpha (b.map Chunk.id) (v.map Chunk.id)))
        (weightedScores alpha (b.map Chunk.id) (v.map Chunk.id))
    ∧ (sortDesc (weightedScores alpha (b.map Chunk.id) (v.map Chunk.id))).Pairwise
        (fun p1 p2 => p2.2 ≤ p1.2)
    ∧ (∀ s : ℚ,
        (sortDesc (weightedScores alpha (b.map Chunk.id) (v.map Chunk.id))).filter
            (fun p => decide (p.2 = s))
          = (weightedScores alpha (b.map Chunk.id) (v.map Chunk.id)).filter
            (fun p => decide (p.2 = s)))
    ∧ weighted_fusion (1/2) [cA, cB, cC] [cB, cD, cA] 2 = ["B", "A"] := by
  refine ⟨fun x => scoreOf_weightedScores alpha _ _ x hb hv, rfl,
    sortDesc_perm _, sortDesc_pairwise _, fun s => sortDesc_filter _ s, ?_⟩
  norm_num [weighted_fusion, weightedScores, addRanked, updOrAppend, sortDesc, insDesc,
    cA, cB, cC, cD]

/-- Witness for C1 at the spec's worked scenario. -/
theorem weighted_fusion_correct_witness :
    (([cA, cB, cC].map Chunk.id).Nodup ∧ ([cB, cD, cA].map Chunk.id).Nodup)
    ∧ weighted_fusion (1/2) [cA, cB, cC] [cB, cD, cA] 2 = ["B", "A"] :=
  ⟨⟨by decide, by decide⟩,
    (weighted_fusion_correct (1/2) [cA, cB, cC] [cB, cD, cA] 2 (by decide)
      (by decide)).2.2.2.2.2⟩

/-- C2: for duplicate-free ranked result lists, `rrf_fusion` assigns each
chunk id the sum, over the lists containing it, of `1 / (c + rank)` with
1-based ranks; the two lists are weighted identically (swapping them does
not change any score), and the method takes no `alpha` parameter at all
(`rrf_fusion` is a `staticmethod` of four arguments); the output is the
score dict sorted descending, truncated to `k`; on lexical `[A,B,C]`,
vector `[B,D,A]`, `c = 60`, `k = 7` the output is `[B, A, D, C]`. -/
theorem rrf_fusion_correct (b v : List Chunk) (k : ℕ) (c : ℚ)
    (hb : (b.map Chunk.id).Nodup) (hv : (v.map Chunk.id).Nodup) :
    (∀ x, scoreOf (rrfScores c (b.map Chunk.id) (v.map Chunk.id)) x
        = rrfTerm c (b.map Chunk.id) x + rrfTerm c (v.map Chunk.id) x)
    ∧ (∀ x, scoreOf (rrfScores c (b.map Chunk.id) (v.map Chunk.id)) x
        = scoreOf (rrfScores c (v.map Chunk.id) (b.map Chunk.id)) x)
    ∧ rrf_fusion b v k c
        = ((sortDesc (rrfScores c (b.map Chunk.id)
            (v.map Chunk.id))).take k).map Prod.fst
    ∧ rrf_fusion [cA, cB, cC] [cB, cD, cA] 7 60 = ["B", "A", "D", "C"] := by
  refine ⟨fun x => scoreOf_rrfScores c _ _ x hb hv, ?_, rfl, ?_⟩
  · intro x
    rw [scoreOf_rrfScores c _ _ x hb hv, scoreOf_rrfScores c _ _ x hv hb, add_comm]
  · norm_num [rrf_fusion, rrfScores, addRanked, updOrAppend, sortDesc, insDesc,
      cA, cB, cC, cD]

/-- Witness for C2 at the spec's worked scenario. -/
theorem rrf_fusion_correct_witness :
    (([cA, cB, cC].map Chunk.id).Nodup ∧ ([cB, cD, cA].map Chunk.id).Nodup)
    ∧ rrf_fusion [cA, cB, cC] [cB, cD, cA] 7 60 = ["B", "A", "D", "C"] :=
  ⟨⟨by decide, by decide⟩,
    (rrf_fusion_correct [cA, cB, cC] [cB, cD, cA] 7 60 (by decide) (by decide)).2.2.2⟩

/-- C3: when the lexical index is unloaded (`N = 0`) and the persisted
index file is absent (loading raises the not-found error, caught on line
65), `id_search` with `use_bm25 = true` returns (without raising) exactly
the ordered id list of the `use_bm25 = false` vector-only call. -/
theorem id_search_fallback_vector_only (disk : String → Option BM25State)
    (fr : FusionRetriever) (q : String) (topk : ℕ)
    (hN : fr.bm25.N = 0) (hd : disk fr.bm25_index_path = none) (htop : 1 ≤ topk) :
    (id_search disk fr q topk true).1 = (id_search disk fr q topk false).1 := by
  have h1 : loadStep disk fr true = (false, fr) :=
    loadStep_missing disk fr true ⟨rfl, hN⟩ hd
  have h2 : loadStep disk fr false = (false, fr) := loadStep_skip disk fr false (by simp)
  rw [id_search, id_search, h1, h2]

/-- Witness for C3: a retriever with empty lexical state and no index file
on disk. -/
theorem id_search_fallback_vector_only_witness :
    (fr0.bm25.N = 0 ∧ disk0 fr0.bm25_index_path = none ∧ 1 ≤ 2)
    ∧ (id_search disk0 fr0 "q" 2 true).1 = (id_search disk0 fr0 "q" 2 false).1 :=
  ⟨⟨rfl, rfl, by omega⟩,
    id_search_fallback_vector_only disk0 fr0 "q" 2 rfl rfl (by omega)⟩

/-- C4: for duplicate-free ranked lists each supplying at least `k`
candidates, `weighted_fusion` with `alpha = 1` returns the first `k` ids of
the lexical list and with `alpha = 0` the first `k` ids of the vector
list. -/
theorem weighted_fusion_alpha_extremes (b v : List Chunk) (k : ℕ)
    (hb : (b.map Chunk.id).Nodup) (hv : (v.map Chunk.id).Nodup) :
    (k ≤ b.length → weighted_fusion 1 b v k = (b.map Chunk.id).take k)
    ∧ (k ≤ v.length → weighted_fusion 0 b v k = (v.map Chunk.id).take k) := by
  constructor
  · intro hk
    rw [weighted_fusion]
    refine sorted_take_eq _ (b.map Chunk.id)
      ((v.map Chunk.id).filter (fun x => decide (x ∉ b.map Chunk.id))) k hb
      (hv.filter _) ?_ (nodup_keysOf_weightedScores 1 _ _) ?_ ?_ (by simpa using hk)
    · intro x hx
      simp only [List.mem_filter, decide_eq_true_eq] at hx
      exact hx.2
    · intro x
      rw [weightedScores, mem_keysOf_addRanked, mem_keysOf_addRanked]
      simp only [keysOf, List.map_nil, List.not_mem_nil, false_or, List.mem_filter,
        decide_eq_true_eq]
      tauto
    · intro x
      rw [scoreOf_weightedScores 1 _ _ x hb hv]
      ring
  · intro hk
    rw [weighted_fusion]
    refine sorted_take_eq _ (v.map Chunk.id)
      ((b.map Chunk.id).filter (fun x => decide (x ∉ v.map Chunk.id))) k hv
      (hb.filter _) ?_ (nodup_keysOf_weightedScores 0 _ _) ?_ ?_ (by simpa using hk)
    · intro x hx
      simp only [List.mem_filter, decide_eq_true_eq] at hx
      exact hx.2
    · intro x
      rw [weightedScores, mem_keysOf_addRanked, mem_keysOf_addRanked]
      simp only [keysOf, List.map_nil, List.not_mem_nil, false_or, List.mem_filter,
        decide_eq_true_eq]
      tauto
    · intro x
      rw [scoreOf_weightedScores 0 _ _ x hb hv]
      ring


/-- Witness for C4 on the spec's two ranked lists with `k = 2`: with
`alpha = 1` the output is the lexical prefix `[A, B]`, with `alpha = 0`
the vector prefix `[B, D]`. -/
theorem weighted_fusion_alpha_extremes_witness :
    (([cA, cB, cC].map Chunk.id).Nodup ∧ ([cB, cD, cA].map Chunk.id).Nodup
      ∧ 2 ≤ ([cA, cB, cC] : List Chunk).length ∧ 2 ≤ ([cB, cD, cA] : List Chunk).length)
    ∧ weighted_fusion 1 [cA, cB, cC] [cB, cD, cA] 2 = ["A", "B"]
    ∧ weighted_fusion 0 [cA, cB, cC] [cB, cD, cA] 2 = ["B", "D"] := by
  have h := weighted_fusion_alpha_extremes [cA, cB, cC] [cB, cD, cA] 2
    (by decide) (by decide)
  refine ⟨⟨by decide, by decide, by decide, by decide⟩, ?_, ?_⟩
  · rw [h.1 (by decide)]
    decide
  · rw [h.2 (by decide)]
    decide

/-- C5 counterexample: `id_search` performs no input validation at all.
An empty query string is not rejected: the call completes normally and its
result depends on (hence reads) the vector index — two retrievers that
differ only in vector-store contents return different id lists, `["X"]`
and `["Y"]`, for the same empty-query call.  A non-positive `topk` (0) is
not rejected either: the call completes normally with `[]`.  So no
`InvalidArgument` rejection happens before index work on either malformed
input. -/
theorem id_search_no_invalid_argument_rejection :
    (id_search disk0 frX "" 2 true).1 = ["X"]
    ∧ (id_search disk0 frY "" 2 true).1 = ["Y"]
    ∧ (id_search disk0 frX "q" 0 true).1 = [] :=
  ⟨by decide, by decide, by decide⟩

/-- C5 amended: `id_search` accepts malformed input unchecked: an
empty query is processed like any other (the vector index is searched and
its truncated id list returned), and a non-positive `topk` yields the
empty result list, in every mode; no error is ever signalled for them. -/
theorem id_search_accepts_malformed_input :
    (∀ (disk : String → Option BM25State) (fr : FusionRetriever) (topk : ℕ),
      id_search disk fr "" topk false
        = (((fr.vecSearch "" (topk * 2)).take topk).map Chunk.id, fr))
    ∧ (∀ (disk : String → Option BM25State) (fr : FusionRetriever) (q : String)
        (b : Bool), (id_search disk fr q 0 b).1 = []) := by
  constructor
  · intro disk fr topk
    have h2 : loadStep disk fr false = (false, fr) := loadStep_skip disk fr false (by simp)
    rw [id_search, h2]
    simp
  · intro disk fr q b
    rw [id_search]
    split
    · simp
    · simp [weighted_fusion]

/-- C6 counterexample: `build_index` does not persist the lexical index
after both delegated builds: the trace is lexical build, lexical save,
vector build, so the save (position 1) precedes the vector build
(position 2) and the claimed ordering property is false. -/
theorem build_index_persist_before_vector_build :
    build_index_events fr0 [] = [BuildEvent.bm25Build,
        BuildEvent.bm25Save "indexes/bm25_index.pkl", BuildEvent.vecBuild]
    ∧ (build_index_events fr0 []).getD 1 BuildEvent.bm25Build
        = BuildEvent.bm25Save "indexes/bm25_index.pkl"
    ∧ (build_index_events fr0 []).getD 2 BuildEvent.bm25Build = BuildEvent.vecBuild
    ∧ decide (persistAfterBuilds (build_index_events fr0 [])) = false :=
  ⟨by decide, by decide, by decide, by decide⟩

/-- C6 amended: for every retriever and chunk sequence, `build_index`
delegates to the lexical build, then persists the lexical index to the
configured path, then delegates to the vector build, in that order; it
never performs a vector-index persistence operation. -/
theorem build_index_event_order :
    ∀ (fr : FusionRetriever) (chunks : List Chunk),
      build_index_events fr chunks
        = [BuildEvent.bm25Build, BuildEvent.bm25Save fr.bm25_index_path,
            BuildEvent.vecBuild]
      ∧ (build_index_events fr chunks).filter isVecSave = [] := by
  intro fr chunks
  exact ⟨rfl, rfl⟩

/-- C7 counterexample: the vector-only path of `id_search` (line 72)
projects ids without deduplication, so when the underlying vector result
list repeats an id the returned list repeats it too: `["X", "X"]`, with
`"X"` occurring twice. -/
theorem id_search_duplicates_from_vector_list :
    (id_search disk0 frDup "q" 2 true).1 = ["X", "X"]
    ∧ ((id_search disk0 frDup "q" 2 true).1).count "X" = 2 :=
  ⟨by decide, by decide⟩

/-- C7 amended: provided the underlying vector result list itself carries
no repeated id, the id list returned by `id_search` contains each chunk id
at most once in every mode — in the fused path this needs no assumption at
all (even ids repeated within a list, or shared across the two lists,
appear once, because the score dict keys are unique), and in the
vector-only path the ids are exactly the truncated vector ids. -/
theorem id_search_nodup_of_vector_nodup (disk : String → Option BM25State)
    (fr : FusionRetriever) (q : String) (k : ℕ) (b : Bool)
    (hvec : ((fr.vecSearch q (k * 2)).map Chunk.id).Nodup) :
    ((id_search disk fr q k b).1).Nodup := by
  rw [id_search]
  split
  · rw [(loadStep_preserves disk fr b).1, List.map_take]
    exact List.Nodup.sublist (List.take_sublist _ _) hvec
  · exact weighted_fusion_nodup _ _ _ _

/-- Witness for C7's amended statement. -/
theorem id_search_nodup_of_vector_nodup_witness :
    ((fr0.vecSearch "q" (2 * 2)).map Chunk.id).Nodup
    ∧ ((id_search disk0 fr0 "q" 2 true).1).Nodup :=
  ⟨by decide, id_search_nodup_of_vector_nodup disk0 fr0 "q" 2 true (by decide)⟩

/-- C8: `id_search` returns at most `topk` ids for every query, count and
mode (both the vector-only and the fused path truncate), and
`weighted_fusion` itself returns at most `topk` ids whatever its
inputs. -/
theorem id_search_length_le_topk :
    (∀ (disk : String → Option BM25State) (fr : FusionRetriever) (q : String)
      (k : ℕ) (b : Bool), ((id_search disk fr q k b).1).length ≤ k)
    ∧ (∀ (alpha : ℚ) (b v : List Chunk) (k : ℕ),
      (weighted_fusion alpha b v k).length ≤ k) := by
  have hwf : ∀ (alpha : ℚ) (b v : List Chunk) (k : ℕ),
      (weighted_fusion alpha b v k).length ≤ k := by
    intro alpha b v k
    rw [weighted_fusion, List.length_map, List.length_take]
    omega
  refine ⟨?_, hwf⟩
  intro disk fr q k b
  rw [id_search]
  split
  · simp only [List.length_map, List.length_take]
    omega
  · exact hwf _ _ _ _

/-- C9: for a fixed filesystem, repeated `id_search` calls with the same
query, count, mode and the state left by the previous call return the
identical ordered id list and the identical retriever state: the whole
pipeline is deterministic in its inputs, and the only state transition
(the lazy lexical load) is idempotent. -/
theorem id_search_deterministic (disk : String → Option BM25State)
    (fr : FusionRetriever) (q : String) (k : ℕ) (b : Bool) :
    id_search disk ((id_search disk fr q k b).2) q k b = id_search disk fr q k b := by
  rw [id_search_state disk fr q k b]
  by_cases hc : b = true ∧ fr.bm25.N = 0
  · cases hd : disk fr.bm25_index_path with
    | none => rw [loadStep_missing disk fr b hc hd]
    | some st =>
      rw [loadStep_found disk fr b st hc hd]
      obtain ⟨hb, hN⟩ := hc
      subst hb
      by_cases hstN : st.N = 0
      · have hc2 : (true = true ∧ (setBM25 fr st).bm25.N = 0) :=
          ⟨rfl, by simp [setBM25, hstN]⟩
        have hd2 : disk (setBM25 fr st).bm25_index_path = some st := by
          simp [setBM25, hd]
        have hl2 : loadStep disk (setBM25 fr st) true
            = (true, setBM25 (setBM25 fr st) st) := loadStep_found _ _ _ _ hc2 hd2
        have hl1 : loadStep disk fr true = (true, setBM25 fr st) :=
          loadStep_found _ _ _ _ ⟨rfl, hN⟩ hd
        rw [id_search, id_search, hl1, hl2]
        have hss : setBM25 (setBM25 fr st) st = setBM25 fr st := rfl
        rw [hss]
      · have hc2 : ¬ (true = true ∧ (setBM25 fr st).bm25.N = 0) := by
          simp [setBM25, hstN]
        have hl2 : loadStep disk (setBM25 fr st) true = (true, setBM25 fr st) :=
          loadStep_skip _ _ _ hc2
        have hl1 : loadStep disk fr true = (true, setBM25 fr st) :=
          loadStep_found _ _ _ _ ⟨rfl, hN⟩ hd
        rw [id_search, id_search, hl1, hl2]
  · rw [loadStep_skip disk fr b hc]

/-- C10: `id_search` leaves every component of the retriever other than
the in-memory lexical index untouched: the mixing coefficient `alpha`,
the configured `bm25_index_path` and the vector index state are the same
after the call as before it (the fusion functions themselves are pure:
`weighted_fusion` and `rrf_fusion` consume only their arguments and touch
no retriever state). -/
theorem id_search_frame (disk : String → Option BM25State) (fr : FusionRetriever)
    (q : String) (k : ℕ) (b : Bool) :
    ((id_search disk fr q k b).2).alpha = fr.alpha
    ∧ ((id_search disk fr q k b).2).bm25_index_path = fr.bm25_index_path
    ∧ ((id_search disk fr q k b).2).vecSearch = fr.vecSearch := by
  rw [id_search_state disk fr q k b]
  have hp := loadStep_preserves disk fr b
  exact ⟨hp.2.1, hp.2.2, hp.1⟩
